import Mathlib

/-!
Verification of the record-curation pipeline of `items.py`.

Python strings are modelled as `List Char`; the tokenizer (an external
oracle, `transformers.AutoTokenizer`) is modelled as a pair of abstract
functions `encode`/`decode` passed as a parameter, as the spec's §6
external-interface section describes it.
-/

/-- Python's `\s` / `str.isspace` character class (Unicode whitespace). -/
def pyIsSpace (c : Char) : Bool :=
  let n := c.toNat
  (9 ≤ n && n ≤ 13) || n == 32 || (28 ≤ n && n ≤ 31) || n == 0x85 || n == 0xa0 ||
    n == 0x1680 || (0x2000 ≤ n && n ≤ 0x200a) || n == 0x2028 || n == 0x2029 ||
    n == 0x202f || n == 0x205f || n == 0x3000

/-- The character class of `re.sub(r"[:\[\]{}\s]", " ", stuff)`. -/
def isNoiseChar (c : Char) : Bool :=
  c == ':' || c == '[' || c == ']' || c == '{' || c == '}' || pyIsSpace c

/-- `re.sub(r"[:\[\]{}\s]", " ", stuff)`: each matched character becomes one space. -/
def subNoise (s : List Char) : List Char :=
  s.map (fun c => if isNoiseChar c then ' ' else c)

/-- Python `str.strip()`: remove leading and trailing whitespace. -/
def pyStrip (s : List Char) : List Char :=
  ((s.dropWhile pyIsSpace).reverse.dropWhile pyIsSpace).reverse

/-- Worker for `pyReplace`, structurally recursive on a fuel bound. -/
def replaceGo (p r : List Char) : Nat → List Char → List Char
  | 0, s => s
  | _ + 1, [] => []
  | fuel + 1, c :: cs =>
    if p.isPrefixOf (c :: cs) then r ++ replaceGo p r fuel ((c :: cs).drop p.length)
    else c :: replaceGo p r fuel cs

/-- Python `s.replace(p, r)`: replace all non-overlapping occurrences, left to
right, continuing the scan after each replacement. -/
def pyReplace (s p r : List Char) : List Char :=
  replaceGo p r s.length s

/-- Python `s.split(" ")`: split at every single space, keeping empty pieces. -/
def pySplitSpace : List Char → List (List Char)
  | [] => [[]]
  | c :: cs =>
    if c = ' ' then [] :: pySplitSpace cs
    else
      match pySplitSpace cs with
      | [] => [[c]]
      | w :: ws => (c :: w) :: ws

/-- Python `" ".join(ws)`. -/
def joinSpace : List (List Char) → List Char
  | [] => []
  | [w] => w
  | w :: ws => w ++ ' ' :: joinSpace ws

/-- Python `"\n".join(ws)`. -/
def joinNL : List (List Char) → List Char
  | [] => []
  | [w] => w
  | w :: ws => w ++ '\n' :: joinNL ws

/-- The word filter of `scrub`: `len(word) < 7 or not any(char.isdigit() for char in word)`
(`str.isdigit`, restricted to the ASCII decimal digits). -/
def keepWord (w : List Char) : Bool :=
  w.length < 7 || !(w.any Char.isDigit)

/-- Python `round()` applied to the price: round half to even. -/
def pyRound (q : ℚ) : ℤ :=
  let f := ⌊q⌋
  let frac := q - f
  if frac < 1 / 2 then f
  else if 1 / 2 < frac then f + 1
  else if f % 2 = 0 then f else f + 1

/-- Split a list at the first occurrence of the pattern `p`: returns the part
before it and the part after it, or `none` when `p` does not occur. -/
def breakAt (p : List Char) : List Char → Option (List Char × List Char)
  | [] => if p.isPrefixOf ([] : List Char) then some ([], []) else none
  | c :: cs =>
    if p.isPrefixOf (c :: cs) then some ([], (c :: cs).drop p.length)
    else (breakAt p cs).map (fun ba => (c :: ba.1, ba.2))

def MIN_TOKENS : Nat := 150
def MAX_TOKENS : Nat := 160
def MIN_CHARS : Nat := 300
def CEILING_CHARS : Nat := MAX_TOKENS * 7

/-- The token-encoding oracle consumed by the curator (`encode` is always the
`add_special_tokens=False` form). -/
structure Tokenizer where
  encode : List Char → List Nat
  decode : List Nat → List Char

/-- The value stored under the `"details"` key of a raw record: the key may be
absent, hold Python `None`, or hold a string. -/
inductive DetailsVal
  | absent
  | null
  | str (s : List Char)
deriving DecidableEq

/-- A raw product record, as consumed by `Item.__init__` / `Item.parse`. -/
structure RawData where
  title : List Char
  main_category : List Char
  description : List (List Char)
  features : List (List Char)
  details : DetailsVal

/-- A curated datapoint (the fields of the Python `Item` instance). -/
structure Item where
  title : List Char
  price : ℚ
  category : Option (List Char)
  token_count : Nat
  details : Option (List Char)
  prompt : Option (List Char)
  «include» : Bool
  main_category : List Char

namespace Item

def PREFIX : List Char := "Price is $".toList

def QUESTION : List Char := "How much does this cost to the nearest dollar?".toList

def REMOVALS : List (List Char) :=
  ["Manufacturer".toList, "Language".toList, "Best Sellers Rank".toList,
    "Is Discontinued By Manufacturer".toList]

/-- `Item.scrub_details`: delete every occurrence of every removal string, in
list order, from the details text. -/
def scrub_details (details : List Char) : List Char :=
  REMOVALS.foldl (fun d remove => pyReplace d remove []) details

/-- `Item.scrub`: noise-character substitution, strip, comma cleanup, then drop
every word that is at least 7 characters long and contains a digit. -/
def scrub (stuff : List Char) : List Char :=
  let s1 := pyStrip (subNoise stuff)
  let s2 := pyReplace (pyReplace (pyReplace s1 " ,".toList ",".toList)
    ",,,".toList ",".toList) ",,".toList ",".toList
  let words := pySplitSpace s2
  let select := words.filter keepWord
  joinSpace select

/-- The raw `contents` assembly of `Item.parse` (lines 77–87): description
fragments, feature fragments, then the scrubbed details, each block
newline-terminated when non-empty.  `dv` is the looked-up value of
`data["details"]` (`none` models Python `None`; `if self.details:` is also
false for an empty string). -/
def rawContents (dv : Option (List Char)) (data : RawData) : List Char :=
  let contents := joinNL data.description
  let contents := if contents = [] then contents else contents ++ ['\n']
  let features := joinNL data.features
  let contents := if features = [] then contents else contents ++ features ++ ['\n']
  match dv with
  | some d => if d = [] then contents else contents ++ scrub_details d ++ ['\n']
  | none => contents

/-- The candidate text that `Item.parse` tokenizes: scrubbed title, newline,
scrubbed (ceiling-capped) contents. -/
def candText (dv : Option (List Char)) (data : RawData) : List Char :=
  scrub data.title ++ '\n' :: scrub ((rawContents dv data).take CEILING_CHARS)

/-- `Item.make_prompt`: render the prompt and measure its token count. -/
def make_prompt (tk : Tokenizer) (it : Item) (text : List Char) : Item :=
  let prompt := QUESTION ++ "\n\nMain_Category: ".toList ++ it.main_category ++
    "\n\n".toList ++ text ++ "\n\n".toList ++ PREFIX ++
    (toString (pyRound it.price)).toList ++ ".00".toList
  { it with prompt := some prompt, token_count := (tk.encode prompt).length }

/-- `Item.parse`: assemble the contents, gate on `MIN_CHARS`, cap at
`CEILING_CHARS`, scrub and tokenize, gate on `MIN_TOKENS`, truncate to
`MAX_TOKENS`, decode and render the prompt.  `dv` is the value found under the
`"details"` key. -/
def parse (tk : Tokenizer) (it : Item) (dv : Option (List Char)) (data : RawData) : Item :=
  let it := { it with details := dv }
  let contents := rawContents dv data
  if MIN_CHARS < contents.length then
    let contents := contents.take CEILING_CHARS
    let text := scrub it.title ++ '\n' :: scrub contents
    let tokens := tk.encode text
    if MIN_TOKENS < tokens.length then
      let tokens := tokens.take MAX_TOKENS
      let text := tk.decode tokens
      let it := make_prompt tk it text
      { it with «include» := true }
    else it
  else it

/-- `Item.__init__` before the `parse` call. -/
def initItem (data : RawData) (price : ℚ) : Item :=
  { title := data.title, price := price, token_count := 0, «include» := false,
    prompt := none, details := none, category := none,
    main_category := data.main_category }

/-- Looking up `data["details"]`: `none` models the `KeyError` raised when the
key is absent. -/
def detailsLookup : DetailsVal → Option (Option (List Char))
  | DetailsVal.absent => none
  | DetailsVal.null => some none
  | DetailsVal.str s => some (some s)

/-- Constructing `Item(data, price)`: `__init__` followed by `parse`; an absent
`"details"` key raises `KeyError`. -/
def curate (tk : Tokenizer) (data : RawData) (price : ℚ) : Except String Item :=
  match detailsLookup data.details with
  | none => Except.error ("KeyError: details")
  | some dv => Except.ok (parse tk (initItem data price) dv data)

/-- `Item.test_prompt`: `self.prompt.split(self.PREFIX)[0] + self.PREFIX`.
Calling it on a rejected item (`prompt is None`) would raise in Python; that
case is modelled as `[]`. -/
def test_prompt (it : Item) : List Char :=
  match it.prompt with
  | some p =>
    (match breakAt PREFIX p with
     | some ba => ba.1
     | none => p) ++ PREFIX
  | none => []

end Item

/-- The verdict of a curation outcome (an error is not an accepted record). -/
def isIncluded : Except String Item → Bool
  | Except.ok it => it.«include»
  | Except.error _ => false

/-- A concrete tokenizer satisfying the spec's oracle interface: one token per
character. -/
def charTok : Tokenizer :=
  { encode := fun s => s.map Char.toNat, decode := fun ts => ts.map Char.ofNat }

/-- A long description fragment: 160 one-letter words. -/
def exDesc : List Char := joinSpace (List.replicate 160 (['a']))

/-- A concrete record that the curator accepts under `charTok`. -/
def exampleData : RawData :=
  { title := "Dell Laptop 14 inches".toList, main_category := "Electronics".toList,
    description := [exDesc], features := [], details := DetailsVal.null }

/-- The item produced for `exampleData` (so `Item.curate charTok exampleData 5 =
Except.ok exItem` holds by `rfl`). -/
def exItem : Item := Item.parse charTok (Item.initItem exampleData 5) none exampleData

/-- A concrete record with no text at all: rejected. -/
def emptyData : RawData :=
  { title := "t".toList, main_category := "m".toList, description := [],
    features := [], details := DetailsVal.null }

/-- A description whose scrubbed text sits just above the token floor under
`charTok`: 72 one-letter words, droppable filler words, and a final 6-letter
word that the scrub keeps. -/
def c6Desc : List Char :=
  joinSpace (List.replicate 72 (['a'])) ++
    (List.replicate 15 (" zzzz123456".toList)).flatten ++ " abc456".toList

def dataC6a : RawData :=
  { title := "t".toList, main_category := "m".toList, description := [c6Desc],
    features := [], details := DetailsVal.null }

/-- `dataC6a` with one extra character of raw description text: the last word
becomes `"abc4567"`, which the scrub now drops. -/
def dataC6b : RawData := { dataC6a with description := [c6Desc ++ ['7']] }

/-! ### Structural lemmas about `parse` and `curate` -/

theorem parse_not_chars {tk : Tokenizer} {it : Item} {dv : Option (List Char)}
    {data : RawData} (h : ¬ MIN_CHARS < (Item.rawContents dv data).length) :
    Item.parse tk it dv data = { it with details := dv } := by
  simp only [Item.parse]
  rw [if_neg h]

theorem parse_not_tokens {tk : Tokenizer} {it : Item} {dv : Option (List Char)}
    {data : RawData} (hc : MIN_CHARS < (Item.rawContents dv data).length)
    (h : ¬ MIN_TOKENS < (tk.encode (Item.scrub it.title ++ '\n' ::
      Item.scrub ((Item.rawContents dv data).take CEILING_CHARS))).length) :
    Item.parse tk it dv data = { it with details := dv } := by
  simp only [Item.parse]
  rw [if_pos hc, if_neg h]

theorem parse_accepted {tk : Tokenizer} {it : Item} {dv : Option (List Char)}
    {data : RawData} (hc : MIN_CHARS < (Item.rawContents dv data).length)
    (ht : MIN_TOKENS < (tk.encode (Item.scrub it.title ++ '\n' ::
      Item.scrub ((Item.rawContents dv data).take CEILING_CHARS))).length) :
    Item.parse tk it dv data =
      { Item.make_prompt tk { it with details := dv }
          (tk.decode ((tk.encode (Item.scrub it.title ++ '\n' ::
            Item.scrub ((Item.rawContents dv data).take CEILING_CHARS))).take MAX_TOKENS))
        with «include» := true } := by
  simp only [Item.parse]
  rw [if_pos hc, if_pos ht]

theorem curate_eq {tk : Tokenizer} {data : RawData} {price : ℚ} {dv : Option (List Char)}
    (h1 : Item.detailsLookup data.details = some dv) :
    Item.curate tk data price = Except.ok (Item.parse tk (Item.initItem data price) dv data) := by
  unfold Item.curate
  rw [h1]

theorem candText_eq_text (dv : Option (List Char)) (data : RawData) (price : ℚ) :
    Item.candText dv data = Item.scrub (Item.initItem data price).title ++ '\n' ::
      Item.scrub ((Item.rawContents dv data).take CEILING_CHARS) := rfl

theorem include_iff_aux (tk : Tokenizer) (data : RawData) (price : ℚ)
    (dv : Option (List Char)) (it : Item)
    (h1 : Item.detailsLookup data.details = some dv)
    (h2 : Item.curate tk data price = Except.ok it) :
    it.«include» = true ↔
      (MIN_CHARS < (Item.rawContents dv data).length ∧
        MIN_TOKENS < (tk.encode (Item.candText dv data)).length) := by
  rw [curate_eq h1] at h2
  have hit : Item.parse tk (Item.initItem data price) dv data = it := by
    injection h2
  by_cases hc : MIN_CHARS < (Item.rawContents dv data).length
  · by_cases ht : MIN_TOKENS < (tk.encode (Item.candText dv data)).length
    · rw [candText_eq_text dv data price] at ht
      rw [parse_accepted hc ht] at hit
      rw [← hit]
      simp only [true_iff]
      refine ⟨hc, ?_⟩
      rw [candText_eq_text dv data price]
      exact ht
    · rw [candText_eq_text dv data price] at ht
      rw [parse_not_tokens hc ht] at hit
      rw [← hit]
      simp only [Item.initItem]
      rw [candText_eq_text dv data price]
      simp [hc, ht]
  · rw [parse_not_chars hc] at hit
    rw [← hit]
    simp only [Item.initItem]
    simp [hc]

theorem accepted_item_eq (tk : Tokenizer) (data : RawData) (price : ℚ)
    (dv : Option (List Char)) (it : Item)
    (h1 : Item.detailsLookup data.details = some dv)
    (h2 : Item.curate tk data price = Except.ok it)
    (h3 : it.«include» = true) :
    it = { Item.make_prompt tk { Item.initItem data price with details := dv }
            (tk.decode ((tk.encode (Item.candText dv data)).take MAX_TOKENS))
          with «include» := true } := by
  obtain ⟨hc, ht⟩ := (include_iff_aux tk data price dv it h1 h2).mp h3
  rw [curate_eq h1] at h2
  have hit : Item.parse tk (Item.initItem data price) dv data = it := by
    injection h2
  rw [candText_eq_text dv data price] at ht
  rw [parse_accepted hc ht] at hit
  rw [← hit, candText_eq_text dv data price]

/-! ### Character-level facts about `scrub` -/

theorem mem_subNoise {s : List Char} {c : Char} (h : c ∈ subNoise s) :
    c = ' ' ∨ isNoiseChar c = false := by
  simp only [subNoise, List.mem_map] at h
  obtain ⟨a, _, hfa⟩ := h
  by_cases hn : isNoiseChar a
  · left
    rw [← hfa, if_pos hn]
  · right
    rw [← hfa, if_neg hn]
    exact Bool.of_not_eq_true hn

theorem mem_pyStrip {s : List Char} {c : Char} (h : c ∈ pyStrip s) : c ∈ s := by
  unfold pyStrip at h
  rw [List.mem_reverse] at h
  have h1 : c ∈ (s.dropWhile pyIsSpace).reverse := (List.dropWhile_sublist _).subset h
  rw [List.mem_reverse] at h1
  exact (List.dropWhile_sublist _).subset h1

theorem mem_replaceGo {p r : List Char} :
    ∀ (fuel : Nat) (s : List Char) (c : Char), c ∈ replaceGo p r fuel s → c ∈ s ∨ c ∈ r := by
  intro fuel
  induction fuel with
  | zero => intro s c h; exact Or.inl h
  | succ n ih =>
    intro s c h
    cases s with
    | nil => exact Or.inl h
    | cons a as =>
      rw [replaceGo] at h
      by_cases hp : p.isPrefixOf (a :: as)
      · rw [if_pos hp] at h
        rcases List.mem_append.mp h with h' | h'
        · exact Or.inr h'
        · rcases ih _ c h' with h'' | h''
          · exact Or.inl (List.mem_of_mem_drop h'')
          · exact Or.inr h''
      · rw [if_neg hp] at h
        rcases List.mem_cons.mp h with h' | h'
        · exact Or.inl (h' ▸ List.mem_cons_self a as)
        · rcases ih _ c h' with h'' | h''
          · exact Or.inl (List.mem_cons_of_mem a h'')
          · exact Or.inr h''

theorem mem_pyReplace {s p r : List Char} {c : Char} (h : c ∈ pyReplace s p r) :
    c ∈ s ∨ c ∈ r :=
  mem_replaceGo s.length s c h

theorem pySplitSpace_ne_nil (s : List Char) : pySplitSpace s ≠ [] := by
  cases s with
  | nil => simp [pySplitSpace]
  | cons c cs =>
    rw [pySplitSpace]
    by_cases hc : c = ' '
    · rw [if_pos hc]; simp
    · rw [if_neg hc]
      rcases h : pySplitSpace cs with _ | ⟨w, ws⟩ <;> simp

theorem mem_pySplitSpace :
    ∀ (s : List Char) (w : List Char), w ∈ pySplitSpace s → ∀ c ∈ w, c ∈ s := by
  intro s
  induction s with
  | nil =>
    intro w hw c hc
    simp [pySplitSpace] at hw
    subst hw
    simp at hc
  | cons a as ih =>
    intro w hw c hc
    rw [pySplitSpace] at hw
    by_cases ha : a = ' '
    · rw [if_pos ha] at hw
      rcases List.mem_cons.mp hw with h' | h'
      · subst h'; simp at hc
      · exact List.mem_cons_of_mem a (ih w h' c hc)
    · rw [if_neg ha] at hw
      rcases h : pySplitSpace as with _ | ⟨w₀, ws⟩
      · exact absurd h (pySplitSpace_ne_nil as)
      · rw [h] at hw
        rcases List.mem_cons.mp hw with h' | h'
        · subst h'
          rcases List.mem_cons.mp hc with h'' | h''
          · exact h'' ▸ List.mem_cons_self a as
          · refine List.mem_cons_of_mem a (ih w₀ ?_ c h'')
            rw [h]; exact List.mem_cons_self w₀ ws
        · refine List.mem_cons_of_mem a (ih w ?_ c hc)
          rw [h]; exact List.mem_cons_of_mem w₀ h'

theorem mem_joinSpace :
    ∀ (ws : List (List Char)) (c : Char), c ∈ joinSpace ws → c = ' ' ∨ ∃ w ∈ ws, c ∈ w := by
  intro ws
  induction ws with
  | nil => intro c h; simp [joinSpace] at h
  | cons w ws ih =>
    intro c h
    cases ws with
    | nil =>
      right
      exact ⟨w, List.mem_cons_self w [], by simpa [joinSpace] using h⟩
    | cons v vs =>
      have hje : joinSpace (w :: v :: vs) = w ++ ' ' :: joinSpace (v :: vs) := rfl
      rw [hje] at h
      rcases List.mem_append.mp h with h' | h'
      · right; exact ⟨w, List.mem_cons_self _ _, h'⟩
      · rcases List.mem_cons.mp h' with h'' | h''
        · exact Or.inl h''
        · rcases ih c h'' with h3 | ⟨u, hu, hc⟩
          · exact Or.inl h3
          · exact Or.inr ⟨u, List.mem_cons_of_mem w hu, hc⟩

theorem scrub_chars {s : List Char} {c : Char} (h : c ∈ Item.scrub s) :
    c = ' ' ∨ isNoiseChar c = false := by
  simp only [Item.scrub] at h
  rcases mem_joinSpace _ c h with h' | ⟨w, hw, hc⟩
  · exact Or.inl h'
  · have hw' := List.mem_of_mem_filter hw
    have hc2 := mem_pySplitSpace _ w hw' c hc
    have hcomma : c ∈ (",".toList : List Char) → isNoiseChar c = false := by
      intro hm
      simp at hm
      subst hm
      decide
    rcases mem_pyReplace hc2 with h3 | h3
    swap
    · exact Or.inr (hcomma h3)
    rcases mem_pyReplace h3 with h4 | h4
    swap
    · exact Or.inr (hcomma h4)
    rcases mem_pyReplace h4 with h5 | h5
    swap
    · exact Or.inr (hcomma h5)
    exact mem_subNoise (mem_pyStrip h5)

/-- Claim C10: for every input text, the output of `scrub` contains none of
`':'`, `'['`, `']'`, `'{'`, `'}'`, and contains no whitespace character other
than the plain space. -/
theorem c10_scrub_char_invariant : ∀ (s : List Char) (c : Char), c ∈ Item.scrub s →
    c ∉ ([':', '[', ']', '{', '}'] : List Char) ∧ (pyIsSpace c = true → c = ' ') := by
  intro s c h
  rcases scrub_chars h with rfl | hn
  · exact ⟨by decide, fun _ => rfl⟩
  · constructor
    · intro hmem
      simp only [List.mem_cons, List.not_mem_nil, or_false] at hmem
      rcases hmem with rfl | rfl | rfl | rfl | rfl
      · exact (by decide : ¬ isNoiseChar ':' = false) hn
      · exact (by decide : ¬ isNoiseChar '[' = false) hn
      · exact (by decide : ¬ isNoiseChar ']' = false) hn
      · exact (by decide : ¬ isNoiseChar '{' = false) hn
      · exact (by decide : ¬ isNoiseChar '}' = false) hn
    · intro hsp
      rw [isNoiseChar, hsp] at hn
      simp at hn

/-- Witness for C10 at a concrete input. -/
theorem c10_witness :
    'h' ∉ ([':', '[', ']', '{', '}'] : List Char) ∧ (pyIsSpace 'h' = true → 'h' = ' ') :=
  c10_scrub_char_invariant ("hi".toList) 'h' (by decide)

/-! ### Identity lemmas used for the idempotence analysis of `scrub` -/

theorem replaceGo_id {p r : List Char} :
    ∀ (fuel : Nat) (s : List Char), ¬ p <:+: s → replaceGo p r fuel s = s := by
  intro fuel
  induction fuel with
  | zero => intro s _; rfl
  | succ n ih =>
    intro s h
    cases s with
    | nil => rfl
    | cons c cs =>
      rw [replaceGo]
      have hp : ¬ p.isPrefixOf (c :: cs) = true := by
        intro hp'
        have hpfx := List.isPrefixOf_iff_prefix.mp hp'
        exact h hpfx.isInfix
      rw [if_neg hp]
      rw [ih cs (fun h' => h (List.infix_cons h'))]

theorem pyReplace_id {s p r : List Char} (h : ¬ p <:+: s) : pyReplace s p r = s :=
  replaceGo_id s.length s h

theorem not_space_of_not_noise {c : Char} (h : isNoiseChar c = false) :
    pyIsSpace c = false := by
  unfold isNoiseChar at h
  simp only [Bool.or_eq_false_iff] at h
  exact h.2

theorem map_id_of_mem {f : Char → Char} :
    ∀ {l : List Char}, (∀ c ∈ l, f c = c) → l.map f = l := by
  intro l
  induction l with
  | nil => intro _; rfl
  | cons a as ih =>
    intro h
    rw [List.map_cons, h a (List.mem_cons_self a as),
      ih (fun c hc => h c (List.mem_cons_of_mem a hc))]

theorem pyStrip_id {s : List Char}
    (h1 : ∀ c, s.head? = some c → pyIsSpace c = false)
    (h2 : ∀ c, s.getLast? = some c → pyIsSpace c = false) :
    pyStrip s = s := by
  unfold pyStrip
  have hd : s.dropWhile pyIsSpace = s := by
    cases s with
    | nil => rfl
    | cons a as =>
      rw [List.dropWhile_cons, h1 a rfl]
      simp
  rw [hd]
  have hd2 : s.reverse.dropWhile pyIsSpace = s.reverse := by
    cases hrev : s.reverse with
    | nil => rfl
    | cons a as =>
      have hl : s.getLast? = some a := by
        rw [← List.head?_reverse, hrev]
        rfl
      rw [List.dropWhile_cons, h2 a hl]
      simp
  rw [hd2, List.reverse_reverse]

theorem pySplitSpace_no_space : ∀ (s : List Char) (w : List Char),
    w ∈ pySplitSpace s → ' ' ∉ w := by
  intro s
  induction s with
  | nil =>
    intro w hw
    simp [pySplitSpace] at hw
    subst hw
    simp
  | cons a as ih =>
    intro w hw
    rw [pySplitSpace] at hw
    by_cases ha : a = ' '
    · rw [if_pos ha] at hw
      rcases List.mem_cons.mp hw with h' | h'
      · subst h'; simp
      · exact ih w h'
    · rw [if_neg ha] at hw
      rcases h : pySplitSpace as with _ | ⟨w₀, ws⟩
      · exact absurd h (pySplitSpace_ne_nil as)
      · rw [h] at hw
        rcases List.mem_cons.mp hw with h' | h'
        · subst h'
          intro hsp
          rcases List.mem_cons.mp hsp with h'' | h''
          · exact ha h''.symm
          · exact ih w₀ (h ▸ List.mem_cons_self w₀ ws) h''
        · exact ih w (h ▸ List.mem_cons_of_mem w₀ h')

theorem pySplitSpace_append_space {w : List Char} (hw : ' ' ∉ w) :
    ∀ t : List Char, pySplitSpace (w ++ ' ' :: t) = w :: pySplitSpace t := by
  induction w with
  | nil =>
    intro t
    rw [List.nil_append, pySplitSpace, if_pos rfl]
  | cons a as ih =>
    intro t
    have ha : ¬ a = ' ' := fun h => hw (h ▸ List.mem_cons_self a as)
    rw [List.cons_append, pySplitSpace, if_neg ha,
      ih (fun h => hw (List.mem_cons_of_mem a h)) t]

theorem pySplitSpace_no_space_id {w : List Char} (hw : ' ' ∉ w) :
    pySplitSpace w = [w] := by
  induction w with
  | nil => rfl
  | cons a as ih =>
    have ha : ¬ a = ' ' := fun h => hw (h ▸ List.mem_cons_self a as)
    rw [pySplitSpace, if_neg ha, ih (fun h => hw (List.mem_cons_of_mem a h))]

theorem pySplitSpace_joinSpace : ∀ (ws : List (List Char)), ws ≠ [] →
    (∀ w ∈ ws, ' ' ∉ w) → pySplitSpace (joinSpace ws) = ws := by
  intro ws
  induction ws with
  | nil => intro h _; exact absurd rfl h
  | cons w ws ih =>
    intro _ hsp
    cases ws with
    | nil =>
      show pySplitSpace (joinSpace [w]) = [w]
      rw [joinSpace]
      exact pySplitSpace_no_space_id (hsp w (List.mem_cons_self w []))
    | cons v vs =>
      have hje : joinSpace (w :: v :: vs) = w ++ ' ' :: joinSpace (v :: vs) := rfl
      rw [hje, pySplitSpace_append_space (hsp w (List.mem_cons_self _ _)),
        ih (by simp) (fun u hu => hsp u (List.mem_cons_of_mem w hu))]

/-- The output of `scrub` is a space-join of space-free words that all pass the
word filter. -/
theorem scrub_shape (s : List Char) : ∃ ws, Item.scrub s = joinSpace ws ∧
    (∀ w ∈ ws, keepWord w = true) ∧ (∀ w ∈ ws, ' ' ∉ w) := by
  simp only [Item.scrub]
  refine ⟨_, rfl, ?_, ?_⟩
  · intro w hw
    exact List.of_mem_filter hw
  · intro w hw
    exact pySplitSpace_no_space _ w (List.mem_of_mem_filter hw)

/-- Counterexample to claim C3 as stated: `scrub` is not idempotent.  The comma
collapse replaces `",,,,,"` by `",,"`, which a second pass reduces further. -/
theorem c3_counterexample :
    Item.scrub (Item.scrub (",,,,,".toList)) ≠ Item.scrub (",,,,,".toList) := by
  decide

/-- Claim C3, amended: `scrub` is idempotent at every input whose scrubbed
output carries no leading or trailing space and no leftover `" ,"` or `",,"`
substring (the counterexample shows the unrestricted statement fails). -/
theorem c3_amended_scrub_idempotent_of_clean : ∀ s : List Char,
    (Item.scrub s).head? ≠ some ' ' →
    (Item.scrub s).getLast? ≠ some ' ' →
    ¬ (" ,".toList <:+: Item.scrub s) →
    ¬ (",,".toList <:+: Item.scrub s) →
    Item.scrub (Item.scrub s) = Item.scrub s := by
  intro s h1 h2 hc1 hc2
  obtain ⟨ws, hws_y, hws_keep, hws_nospace⟩ := scrub_shape s
  have hchar : ∀ c ∈ Item.scrub s, c = ' ' ∨ isNoiseChar c = false :=
    fun c hc => scrub_chars hc
  by_cases hws : ws = []
  · rw [hws_y, hws]
    rfl
  have hsub : subNoise (Item.scrub s) = Item.scrub s := by
    unfold subNoise
    apply map_id_of_mem
    intro c hc
    rcases hchar c hc with rfl | hn
    · rw [if_pos (by decide)]
    · rw [if_neg (by simp [hn])]
  have hhead : ∀ c, (Item.scrub s).head? = some c → pyIsSpace c = false := by
    intro c hc
    have hcm : c ∈ Item.scrub s := by
      cases hy : Item.scrub s with
      | nil => rw [hy] at hc; simp at hc
      | cons a as =>
        rw [hy] at hc
        simp only [List.head?_cons, Option.some.injEq] at hc
        subst hc
        exact List.mem_cons_self a as
    rcases hchar c hcm with rfl | hn
    · exact absurd hc h1
    · exact not_space_of_not_noise hn
  have hlast : ∀ c, (Item.scrub s).getLast? = some c → pyIsSpace c = false := by
    intro c hc
    have hcm : c ∈ Item.scrub s := by
      have : c ∈ (Item.scrub s).reverse := by
        cases hy : (Item.scrub s).reverse with
        | nil =>
          rw [← List.head?_reverse, hy] at hc
          simp at hc
        | cons a as =>
          rw [← List.head?_reverse, hy] at hc
          simp only [List.head?_cons, Option.some.injEq] at hc
          subst hc
          exact List.mem_cons_self a as
      exact List.mem_reverse.mp this
    rcases hchar c hcm with rfl | hn
    · exact absurd hc h2
    · exact not_space_of_not_noise hn
  have hstrip : pyStrip (Item.scrub s) = Item.scrub s := pyStrip_id hhead hlast
  have hc3 : ¬ (",,,".toList <:+: Item.scrub s) := by
    intro h
    exact hc2 (List.IsInfix.trans (by decide) h)
  conv_lhs => rw [Item.scrub]
  rw [hsub, hstrip, pyReplace_id hc1, pyReplace_id hc3, pyReplace_id hc2]
  rw [hws_y, pySplitSpace_joinSpace ws hws hws_nospace,
    List.filter_eq_self.mpr hws_keep]

/-- Witness for the amended C3 at a concrete input. -/
theorem c3_witness :
    Item.scrub (Item.scrub ("hello world".toList)) = Item.scrub ("hello world".toList) :=
  c3_amended_scrub_idempotent_of_clean ("hello world".toList)
    (by decide) (by decide) (by decide) (by decide)

/-! ### Claim C4: removal completeness of `scrub_details` -/

theorem scrub_details_id {s : List Char} (h : ∀ r ∈ Item.REMOVALS, ¬ r <:+: s) :
    Item.scrub_details s = s := by
  have hm := h ("Manufacturer".toList) (by simp [Item.REMOVALS])
  have hl := h ("Language".toList) (by simp [Item.REMOVALS])
  have hb := h ("Best Sellers Rank".toList) (by simp [Item.REMOVALS])
  have hi := h ("Is Discontinued By Manufacturer".toList) (by simp [Item.REMOVALS])
  simp only [Item.scrub_details, Item.REMOVALS, List.foldl_cons, List.foldl_nil]
  rw [pyReplace_id hm, pyReplace_id hl, pyReplace_id hb, pyReplace_id hi]

/-- Counterexample to claim C4 as stated: simple substring deletion can splice
a new removal string together.  The input contains the removal string
`"Language"`; deleting it from `"ManuLanguagefacturer"` yields exactly
`"Manufacturer"`, itself a removal string. -/
theorem c4_counterexample :
    ("Language".toList <:+: "ManuLanguagefacturer".toList) ∧
    Item.scrub_details ("ManuLanguagefacturer".toList) = "Manufacturer".toList ∧
    "Manufacturer".toList ∈ Item.REMOVALS ∧
    "Manufacturer".toList <:+: Item.scrub_details ("ManuLanguagefacturer".toList) := by
  decide

/-- Claim C4, amended: a deletion pass can splice new occurrences together, so
the universal absence guarantee fails; what holds is that `scrubDetails` never
introduces a removal string into an input free of them — on such inputs it is
the identity, and its output contains no removal string. -/
theorem c4_amended_no_removal_introduced : ∀ s : List Char,
    (∀ r ∈ Item.REMOVALS, ¬ r <:+: s) →
    Item.scrub_details s = s ∧ ∀ r ∈ Item.REMOVALS, ¬ r <:+: Item.scrub_details s := by
  intro s h
  have hid := scrub_details_id h
  exact ⟨hid, by rw [hid]; exact h⟩

/-- Witness for the amended C4 at a concrete input. -/
theorem c4_witness :
    Item.scrub_details (": Dell".toList) = ": Dell".toList ∧
    ∀ r ∈ Item.REMOVALS, ¬ r <:+: Item.scrub_details (": Dell".toList) :=
  c4_amended_no_removal_introduced (": Dell".toList) (by decide)

/-! ### Claims C1, C2, C5, C9 -/

/-- Claim C1: `curate` yields `include = true` exactly when the assembled raw
contents are strictly longer than `MIN_CHARS` and the scrubbed title+contents
text encodes, before token truncation, to strictly more than `MIN_TOKENS`
tokens; so length exactly `MIN_CHARS` or token count exactly `MIN_TOKENS` is
rejected, and `MIN_CHARS + 1` / `MIN_TOKENS + 1` proceed. -/
theorem c1_include_iff_thresholds : ∀ (tk : Tokenizer) (data : RawData) (price : ℚ)
    (dv : Option (List Char)) (it : Item),
    Item.detailsLookup data.details = some dv →
    Item.curate tk data price = Except.ok it →
    (it.«include» = true ↔
      (MIN_CHARS < (Item.rawContents dv data).length ∧
        MIN_TOKENS < (tk.encode (Item.candText dv data)).length)) :=
  fun tk data price dv it h1 h2 => include_iff_aux tk data price dv it h1 h2

/-- Witness for C1 at a concrete accepted record. -/
theorem c1_witness :
    exItem.«include» = true ↔
      (MIN_CHARS < (Item.rawContents none exampleData).length ∧
        MIN_TOKENS < (charTok.encode (Item.candText none exampleData)).length) :=
  c1_include_iff_thresholds charTok exampleData 5 none exItem rfl rfl

/-- Claim C2: every accepted prompt begins with the fixed question preamble and
ends with the price prefix, the rounded price and the literal `".00"`. -/
theorem c2_prompt_shape : ∀ (tk : Tokenizer) (data : RawData) (price : ℚ)
    (dv : Option (List Char)) (it : Item),
    Item.detailsLookup data.details = some dv →
    Item.curate tk data price = Except.ok it →
    it.«include» = true →
    ∃ p, it.prompt = some p ∧ Item.QUESTION <+: p ∧
      ( Item.PREFIX ++ (toString (pyRound price)).toList ++ ".00".toList) <:+ p := by
  intro tk data price dv it h1 h2 h3
  rw [accepted_item_eq tk data price dv it h1 h2 h3]
  simp only [Item.make_prompt, Item.initItem]
  refine ⟨_, rfl, ?_, ?_⟩
  · refine ⟨"\n\nMain_Category: ".toList ++ data.main_category ++ "\n\n".toList ++
      tk.decode ((tk.encode (Item.candText dv data)).take MAX_TOKENS) ++ "\n\n".toList ++
      Item.PREFIX ++ (toString (pyRound price)).toList ++ ".00".toList, ?_⟩
    simp [List.append_assoc]
  · refine ⟨Item.QUESTION ++ "\n\nMain_Category: ".toList ++ data.main_category ++
      "\n\n".toList ++ tk.decode ((tk.encode (Item.candText dv data)).take MAX_TOKENS) ++
      "\n\n".toList, ?_⟩
    simp [List.append_assoc]

set_option maxRecDepth 40000 in
/-- Witness for C2 at a concrete accepted record. -/
theorem c2_witness :
    ∃ p, exItem.prompt = some p ∧ Item.QUESTION <+: p ∧
      ( Item.PREFIX ++ (toString (pyRound 5)).toList ++ ".00".toList) <:+ p :=
  c2_prompt_shape charTok exampleData 5 none exItem rfl rfl (by rfl)

/-- Counterexample to claim C5 as stated: a record whose `details` KEY is
absent is not processed; `data["details"]` raises `KeyError`. -/
theorem c5_counterexample :
    Item.curate charTok ({ exampleData with details := DetailsVal.absent }) 5 =
      Except.error ("KeyError: details") := rfl

/-- Claim C5, amended: a record whose `details` is null (`None`) is processed
normally — no error, the verdict depends only on the thresholds — and null
details contribute nothing to the assembled contents (they assemble exactly as
empty details do); a record whose `details` key is absent raises `KeyError`
instead of being processed. -/
theorem c5_amended_null_details_ok : ∀ (tk : Tokenizer) (data : RawData) (price : ℚ),
    data.details = DetailsVal.null →
    (∃ it, Item.curate tk data price = Except.ok it ∧
      (it.«include» = true ↔
        (MIN_CHARS < (Item.rawContents none data).length ∧
          MIN_TOKENS < (tk.encode (Item.candText none data)).length))) ∧
    Item.rawContents none data = Item.rawContents (some []) data := by
  intro tk data price h
  have hdv : Item.detailsLookup data.details = some none := by
    rw [h]
    rfl
  constructor
  · exact ⟨_, curate_eq hdv, include_iff_aux tk data price none _ hdv (curate_eq hdv)⟩
  · simp [Item.rawContents]

/-- Witness for the amended C5 at a concrete record. -/
theorem c5_witness :
    (∃ it, Item.curate charTok exampleData 5 = Except.ok it ∧
      (it.«include» = true ↔
        (MIN_CHARS < (Item.rawContents none exampleData).length ∧
          MIN_TOKENS < (charTok.encode (Item.candText none exampleData)).length))) ∧
    Item.rawContents none exampleData = Item.rawContents (some []) exampleData :=
  c5_amended_null_details_ok charTok exampleData 5 rfl

/-- Claim C9: whenever `curate` returns a verdict at all, a rejected record
is a normal outcome: no exception, no partial artifact — the prompt is `None`,
the token count is `0`, and title, price and category are as supplied. -/
theorem c9_rejection_clean : ∀ (tk : Tokenizer) (data : RawData) (price : ℚ),
    data.details ≠ DetailsVal.absent →
    ∃ it, Item.curate tk data price = Except.ok it ∧
      (it.«include» = false → it.prompt = none ∧ it.token_count = 0 ∧
        it.title = data.title ∧ it.price = price ∧
        it.main_category = data.main_category) := by
  intro tk data price hne
  obtain ⟨dv, hdv⟩ : ∃ dv, Item.detailsLookup data.details = some dv := by
    cases h : data.details with
    | absent => exact absurd h hne
    | null => exact ⟨none, by simp [Item.detailsLookup]⟩
    | str s => exact ⟨some s, by simp [Item.detailsLookup]⟩
  refine ⟨Item.parse tk (Item.initItem data price) dv data, curate_eq hdv, ?_⟩
  intro hinc
  by_cases hc : MIN_CHARS < (Item.rawContents dv data).length
  · by_cases ht : MIN_TOKENS < (tk.encode (Item.scrub (Item.initItem data price).title ++
      '\n' :: Item.scrub ((Item.rawContents dv data).take CEILING_CHARS))).length
    · rw [parse_accepted hc ht] at hinc
      simp at hinc
    · rw [parse_not_tokens hc ht] at hinc ⊢
      simp [Item.initItem]
  · rw [parse_not_chars hc] at hinc ⊢
    simp [Item.initItem]

/-- Witness for C9 at a concrete rejected record. -/
theorem c9_witness :
    ∃ it, Item.curate charTok emptyData 5 = Except.ok it ∧
      (it.«include» = false → it.prompt = none ∧ it.token_count = 0 ∧
        it.title = emptyData.title ∧ it.price = 5 ∧
        it.main_category = emptyData.main_category) :=
  c9_rejection_clean charTok emptyData 5 (by decide)

/-! ### Claim C6: monotonicity in the description/features text -/

theorem joinNL_cons_cons (w v : List Char) (vs : List (List Char)) :
    joinNL (w :: v :: vs) = w ++ '\n' :: joinNL (v :: vs) := rfl

theorem joinNL_length_mono_set : ∀ (l : List (List Char)) (f extra : List Char)
    (r : List (List Char)),
    (joinNL (l ++ f :: r)).length ≤ (joinNL (l ++ (f ++ extra) :: r)).length := by
  intro l
  induction l with
  | nil =>
    intro f extra r
    cases r with
    | nil => simp [joinNL]
    | cons v vs =>
      rw [List.nil_append, List.nil_append, joinNL_cons_cons, joinNL_cons_cons]
      simp [List.length_append]
  | cons a l ih =>
    intro f extra r
    have h1 : joinNL (a :: l ++ f :: r) = a ++ '\n' :: joinNL (l ++ f :: r) := by
      cases l with
      | nil => rfl
      | cons b t => rfl
    have h2 : joinNL (a :: l ++ (f ++ extra) :: r) =
        a ++ '\n' :: joinNL (l ++ (f ++ extra) :: r) := by
      cases l with
      | nil => rfl
      | cons b t => rfl
    rw [h1, h2]
    simp only [List.length_append, List.length_cons]
    have := ih f extra r
    omega

theorem joinNL_length_mono_append : ∀ (l : List (List Char)) (f : List Char),
    (joinNL l).length ≤ (joinNL (l ++ [f])).length := by
  intro l
  induction l with
  | nil => intro f; simp [joinNL]
  | cons a l ih =>
    intro f
    cases l with
    | nil => simp [joinNL, List.length_append]
    | cons b t =>
      have h1 : joinNL (a :: b :: t ++ [f]) = a ++ '\n' :: joinNL (b :: t ++ [f]) := rfl
      rw [joinNL_cons_cons, h1]
      simp only [List.length_append, List.length_cons]
      have := ih f
      omega

theorem rawContents_length (dv : Option (List Char)) (data : RawData) :
    (Item.rawContents dv data).length =
      (if joinNL data.description = [] then 0 else (joinNL data.description).length + 1) +
      (if joinNL data.features = [] then 0 else (joinNL data.features).length + 1) +
      (match dv with
        | some d => if d = [] then 0 else (Item.scrub_details d).length + 1
        | none => 0) := by
  rcases dv with _ | d
  · simp only [Item.rawContents]
    by_cases h1 : joinNL data.description = [] <;>
      by_cases h2 : joinNL data.features = [] <;>
        simp [h1, h2, List.length_append] <;> omega
  · simp only [Item.rawContents]
    by_cases h1 : joinNL data.description = [] <;>
      by_cases h2 : joinNL data.features = [] <;>
        by_cases h3 : d = [] <;>
          simp [h1, h2, h3, List.length_append] <;> omega

theorem ite_len_mono {a b : List Char} (h : a.length ≤ b.length) :
    (if a = [] then 0 else a.length + 1) ≤ (if b = [] then 0 else b.length + 1) := by
  by_cases ha : a = []
  · rw [if_pos ha]
    exact Nat.zero_le _
  · have h1 : 0 < a.length := List.length_pos.mpr ha
    have hb : ¬ b = [] := by
      intro hb
      rw [hb] at h
      exact ha (List.length_eq_zero.mp (Nat.le_zero.mp h))
    rw [if_neg ha, if_neg hb]
    omega

set_option maxRecDepth 100000 in
/-- Counterexample to claim C6 as stated: `dataC6b` extends `dataC6a` by one
character of raw description text (`"abc456"` becomes `"abc4567"`), yet the
verdict flips from accepted to rejected — the lengthened word is now at least
7 characters long and contains a digit, so `scrub` drops it and the token
count falls below the floor. -/
theorem c6_counterexample :
    isIncluded (Item.curate charTok dataC6a 5) = true ∧
    isIncluded (Item.curate charTok dataC6b 5) = false ∧
    dataC6a.description = [c6Desc] ∧
    dataC6b.description = [c6Desc ++ ['7']] ∧
    (Item.rawContents none dataC6b).length = (Item.rawContents none dataC6a).length + 1 :=
  ⟨rfl, rfl, rfl, rfl, rfl⟩

/-- Claim C6, amended: assembling strictly more raw description/features text
never shortens the assembled `contents` (so the character pre-filter verdict is
monotone); the full accept/reject verdict is *not* monotone, because extending
a word can make the scrub drop it (see the counterexample). -/
theorem c6_amended_contents_monotone : ∀ (dv : Option (List Char)) (data : RawData)
    (l r : List (List Char)) (f extra : List Char),
    (Item.rawContents dv { data with description := l ++ f :: r }).length ≤
      (Item.rawContents dv { data with description := l ++ (f ++ extra) :: r }).length ∧
    (Item.rawContents dv { data with features := l ++ f :: r }).length ≤
      (Item.rawContents dv { data with features := l ++ (f ++ extra) :: r }).length ∧
    (Item.rawContents dv data).length ≤
      (Item.rawContents dv { data with description := data.description ++ [f] }).length ∧
    (Item.rawContents dv data).length ≤
      (Item.rawContents dv { data with features := data.features ++ [f] }).length := by
  intro dv data l r f extra
  refine ⟨?_, ?_, ?_, ?_⟩
  · rw [rawContents_length, rawContents_length]
    exact Nat.add_le_add
      (Nat.add_le_add (ite_len_mono (joinNL_length_mono_set l f extra r)) (Nat.le_refl _))
      (Nat.le_refl _)
  · rw [rawContents_length, rawContents_length]
    exact Nat.add_le_add
      (Nat.add_le_add (Nat.le_refl _) (ite_len_mono (joinNL_length_mono_set l f extra r)))
      (Nat.le_refl _)
  · rw [rawContents_length, rawContents_length]
    exact Nat.add_le_add
      (Nat.add_le_add (ite_len_mono (joinNL_length_mono_append data.description f))
        (Nat.le_refl _))
      (Nat.le_refl _)
  · rw [rawContents_length, rawContents_length]
    exact Nat.add_le_add
      (Nat.add_le_add (Nat.le_refl _)
        (ite_len_mono (joinNL_length_mono_append data.features f)))
      (Nat.le_refl _)

/-! ### Claim C7: truncation cap -/

/-- Claim C7: for every accepted record, re-encoding the decoded truncated
description text produces at most `MAX_TOKENS + 2` tokens, for any tokenizer
oracle whose decode/re-encode round trip shifts token counts by at most 2. -/
theorem c7_truncation_cap : ∀ (tk : Tokenizer) (data : RawData) (price : ℚ)
    (dv : Option (List Char)) (it : Item),
    (∀ ts : List Nat, (tk.encode (tk.decode ts)).length ≤ ts.length + 2) →
    Item.detailsLookup data.details = some dv →
    Item.curate tk data price = Except.ok it →
    it.«include» = true →
    (tk.encode (tk.decode ((tk.encode (Item.candText dv data)).take MAX_TOKENS))).length ≤
      MAX_TOKENS + 2 := by
  intro tk data price dv it htol _ _ _
  have h1 := htol ((tk.encode (Item.candText dv data)).take MAX_TOKENS)
  have h2 : ((tk.encode (Item.candText dv data)).take MAX_TOKENS).length ≤ MAX_TOKENS := by
    simp [List.length_take]
  omega

set_option maxRecDepth 100000 in
/-- Witness for C7 at a concrete accepted record and tokenizer. -/
theorem c7_witness :
    (charTok.encode (charTok.decode
      ((charTok.encode (Item.candText none exampleData)).take MAX_TOKENS))).length ≤
      MAX_TOKENS + 2 :=
  c7_truncation_cap charTok exampleData 5 none exItem
    (fun ts => by simp [charTok]) rfl rfl (by rfl)

/-! ### Claim C8: `test_prompt` -/

theorem breakAt_eq {p : List Char} : ∀ {s b a : List Char},
    breakAt p s = some (b, a) → s = b ++ p ++ a := by
  intro s
  induction s with
  | nil =>
    intro b a h
    rw [breakAt] at h
    by_cases hp : p.isPrefixOf ([] : List Char)
    · rw [if_pos hp] at h
      have hpfx := List.isPrefixOf_iff_prefix.mp hp
      have hp' : p = [] := List.prefix_nil.mp hpfx
      simp only [Option.some.injEq, Prod.mk.injEq] at h
      obtain ⟨hb, ha⟩ := h
      rw [← hb, ← ha, hp']
      rfl
    · rw [if_neg hp] at h
      simp at h
  | cons c cs ih =>
    intro b a h
    rw [breakAt] at h
    by_cases hp : p.isPrefixOf (c :: cs)
    · rw [if_pos hp] at h
      simp only [Option.some.injEq, Prod.mk.injEq] at h
      obtain ⟨hb, ha⟩ := h
      have hpfx := List.isPrefixOf_iff_prefix.mp hp
      have hpre := List.prefix_iff_eq_append.mp hpfx
      rw [← hb, ← ha, List.nil_append]
      exact hpre.symm
    · rw [if_neg hp] at h
      rcases hmap : breakAt p cs with _ | ⟨b', a'⟩
      · rw [hmap] at h
        simp at h
      · rw [hmap] at h
        simp only [Option.map_some', Option.some.injEq, Prod.mk.injEq] at h
        obtain ⟨hb, ha⟩ := h
        rw [← hb, ← ha]
        simp [ih hmap]

theorem breakAt_occurs {p : List Char} : ∀ (u v : List Char),
    ∃ b a, breakAt p (u ++ p ++ v) = some (b, a) := by
  intro u
  induction u with
  | nil =>
    intro v
    rcases hpv : (p ++ v : List Char) with _ | ⟨c, cs⟩
    · obtain ⟨rfl, rfl⟩ := List.append_eq_nil.mp hpv
      exact ⟨[], [], rfl⟩
    · refine ⟨[], (c :: cs).drop p.length, ?_⟩
      have hp : p.isPrefixOf (c :: cs) = true := by
        rw [ List.isPrefixOf_iff_prefix, ← hpv]
        exact List.prefix_append p v
      simp only [List.nil_append]
      rw [hpv, breakAt, if_pos hp]
  | cons x u' ih =>
    intro v
    by_cases hp : p.isPrefixOf (x :: (u' ++ p ++ v))
    · refine ⟨[], (x :: (u' ++ p ++ v)).drop p.length, ?_⟩
      simp only [List.cons_append]
      rw [breakAt, if_pos hp]
    · obtain ⟨b, a, hba⟩ := ih v
      refine ⟨x :: b, a, ?_⟩
      simp only [List.cons_append]
      rw [breakAt, if_neg hp, hba]
      rfl

theorem breakAt_leftmost {p : List Char} : ∀ {s b a : List Char},
    breakAt p s = some (b, a) → ∀ u v, s = u ++ p ++ v → b.length ≤ u.length := by
  intro s
  induction s with
  | nil =>
    intro b a h u v _
    rw [breakAt] at h
    by_cases hp : p.isPrefixOf ([] : List Char)
    · rw [if_pos hp] at h
      simp only [Option.some.injEq, Prod.mk.injEq] at h
      rw [← h.1]
      exact Nat.zero_le _
    · rw [if_neg hp] at h
      simp at h
  | cons c cs ih =>
    intro b a h u v hs
    rw [breakAt] at h
    by_cases hp : p.isPrefixOf (c :: cs)
    · rw [if_pos hp] at h
      simp only [Option.some.injEq, Prod.mk.injEq] at h
      rw [← h.1]
      exact Nat.zero_le _
    · rw [if_neg hp] at h
      rcases hmap : breakAt p cs with _ | ⟨b', a'⟩
      · rw [hmap] at h
        simp at h
      · rw [hmap] at h
        simp only [Option.map_some', Option.some.injEq, Prod.mk.injEq] at h
        obtain ⟨hb, _⟩ := h
        cases u with
        | nil =>
          exfalso
          apply hp
          rw [List.nil_append] at hs
          exact List.isPrefixOf_iff_prefix.mpr ⟨v, hs.symm⟩
        | cons x u' =>
          simp only [List.cons_append, List.cons.injEq] at hs
          have hle := ih hmap u' v hs.2
          rw [← hb]
          simp only [List.length_cons]
          omega

/-- Claim C8: for every accepted item, `test_prompt` is the portion of the
prompt up to and including the first occurrence of the price prefix: it is a
strict prefix of the prompt, ends with the price prefix, and the price digits
rendered after the prefix lie entirely in the withheld remainder. -/
theorem c8_test_prompt_correct : ∀ (tk : Tokenizer) (data : RawData) (price : ℚ)
    (dv : Option (List Char)) (it : Item),
    Item.detailsLookup data.details = some dv →
    Item.curate tk data price = Except.ok it →
    it.«include» = true →
    ∃ p b a, it.prompt = some p ∧
      Item.test_prompt it = b ++ Item.PREFIX ∧
      p = (b ++ Item.PREFIX) ++ a ∧
      a ≠ [] ∧
      ((toString (pyRound price)).toList ++ ".00".toList) <:+ a ∧
      (∀ u v, p = u ++ Item.PREFIX ++ v → b.length ≤ u.length) := by
  intro tk data price dv it h1 h2 h3
  have hit := accepted_item_eq tk data price dv it h1 h2 h3
  obtain ⟨p, hp, hshape⟩ : ∃ p, it.prompt = some p ∧
      p = (Item.QUESTION ++ "\n\nMain_Category: ".toList ++ data.main_category ++
        "\n\n".toList ++ tk.decode ((tk.encode (Item.candText dv data)).take MAX_TOKENS) ++
        "\n\n".toList) ++ Item.PREFIX ++
        ((toString (pyRound price)).toList ++ ".00".toList) := by
    rw [hit]
    simp only [Item.make_prompt, Item.initItem]
    exact ⟨_, rfl, by simp [List.append_assoc]⟩
  obtain ⟨b, a, hba⟩ := @breakAt_occurs Item.PREFIX
    (Item.QUESTION ++ "\n\nMain_Category: ".toList ++ data.main_category ++
      "\n\n".toList ++ tk.decode ((tk.encode (Item.candText dv data)).take MAX_TOKENS) ++
      "\n\n".toList)
    ((toString (pyRound price)).toList ++ ".00".toList)
  rw [← hshape] at hba
  have hdecomp : p = b ++ Item.PREFIX ++ a := breakAt_eq hba
  have htp : Item.test_prompt it = b ++ Item.PREFIX := by
    rw [Item.test_prompt, hp]
    simp only [hba]
  have hlm : ∀ u v, p = u ++ Item.PREFIX ++ v → b.length ≤ u.length :=
    fun u v huv => breakAt_leftmost hba u v huv
  have hblen := hlm _ _ hshape
  have hlen : ((toString (pyRound price)).toList ++ ".00".toList).length ≤ a.length := by
    have e1 := congrArg List.length hshape
    have e2 := congrArg List.length hdecomp
    have hb' := hblen
    simp only [List.length_append] at e1 e2 hb' ⊢
    omega
  have hasuf : a <:+ p := ⟨b ++ Item.PREFIX, hdecomp.symm⟩
  have hvsuf : ((toString (pyRound price)).toList ++ ".00".toList) <:+ p := by
    rw [hshape]
    exact ⟨_, rfl⟩
  have hsuffix : ((toString (pyRound price)).toList ++ ".00".toList) <:+ a := by
    rcases List.suffix_or_suffix_of_suffix hvsuf hasuf with hcase | hcase
    · exact hcase
    · have : a = (toString (pyRound price)).toList ++ ".00".toList :=
        hcase.eq_of_length (Nat.le_antisymm hcase.length_le hlen)
      rw [this]
  have hane : a ≠ [] := by
    intro hnil
    rw [hnil] at hlen
    have h0 : ((toString (pyRound price)).toList ++ ".00".toList).length = 0 :=
      Nat.le_zero.mp hlen
    have h3 : (".00".toList : List Char).length = 3 := rfl
    simp only [List.length_append] at h0
    omega
  exact ⟨p, b, a, hp, htp, hdecomp, hane, hsuffix, hlm⟩

set_option maxRecDepth 100000 in
/-- Witness for C8 at a concrete accepted record. -/
theorem c8_witness :
    ∃ p b a, exItem.prompt = some p ∧
      Item.test_prompt exItem = b ++ Item.PREFIX ∧
      p = (b ++ Item.PREFIX) ++ a ∧
      a ≠ [] ∧
      ((toString (pyRound 5)).toList ++ ".00".toList) <:+ a ∧
      (∀ u v, p = u ++ Item.PREFIX ++ v → b.length ≤ u.length) :=
  c8_test_prompt_correct charTok exampleData 5 none exItem rfl rfl (by rfl)
